import Mathlib

/-!
Verification of the xkcdfeed application core (src/app/hello.go).

The Go source is shallowly embedded: strings and byte slices become
`List Char`, the two compiled regular expressions (`altExp`, `httpExp`)
become executable matching functions with Go's leftmost-first semantics,
`encoding/xml` marshalling of the fixed `Feed` schema is modelled from the
spec (section 4.2), and the App Engine memcache collaborator is modelled
from the spec (sections 3 and 4.5) as a single keyed entry with an
absolute expiry instant.
-/

/-- `Link` from hello.go lines 20-23: an Atom link with an `href` attribute
and an optional `rel` attribute (`omitempty`). -/
structure Link where
  Href : List Char
  Rel : List Char
deriving DecidableEq, Repr

/-- The anonymous `Summary` struct of `Entry` (hello.go lines 40-43): an
optional `type` attribute and a raw `innerxml` body. -/
structure Summary where
  Type' : List Char
  Body : List Char
deriving DecidableEq, Repr

/-- `Entry` from hello.go lines 35-44. -/
structure Entry where
  Title : List Char
  Link : List Link
  Updated : List Char
  ID : List Char
  Summary : Summary
deriving DecidableEq, Repr

/-- `Feed` from hello.go lines 25-33 (the `XMLName` metadata field carries
no data and is not modelled). -/
structure Feed where
  Lang : List Char
  Title : List Char
  Link : List Link
  ID : List Char
  Updated : List Char
  Entry : List Entry
deriving DecidableEq, Repr

/-- Strip a literal off the front of a list: `some` of the remainder when
the literal is a prefix, `none` otherwise. Shared helper for the regex
models and the parser. -/
def dropPre : List Char → List Char → Option (List Char)
  | [], s => some s
  | _ :: _, [] => none
  | p :: ps, c :: cs => if c = p then dropPre ps cs else none

theorem dropPre_eq_some_iff (p : List Char) :
    ∀ s r, dropPre p s = some r ↔ s = p ++ r := by
  induction p with
  | nil => intro s r; simp [dropPre]
  | cons a ps ih =>
    intro s r
    cases s with
    | nil => simp [dropPre]
    | cons c cs =>
      by_cases h : c = a
      · subst h; simp [dropPre, ih]
      · simp [dropPre, h, Ne.symm h]

theorem dropPre_append (p r : List Char) : dropPre p (p ++ r) = some r :=
  (dropPre_eq_some_iff p (p ++ r) r).mpr rfl

theorem dropPre_length {p s r : List Char} (h : dropPre p s = some r) :
    r.length ≤ s.length := by
  have := (dropPre_eq_some_iff p s r).mp h
  subst this
  simp

/-- `hasPre p s` is true when `p` is a prefix of `s`. -/
def hasPre (p s : List Char) : Bool := (dropPre p s).isSome

theorem hasPre_iff (p s : List Char) : hasPre p s = true ↔ ∃ r, s = p ++ r := by
  unfold hasPre
  rw [Option.isSome_iff_exists]
  constructor
  · rintro ⟨r, hr⟩; exact ⟨r, (dropPre_eq_some_iff p s r).mp hr⟩
  · rintro ⟨r, hr⟩; exact ⟨r, (dropPre_eq_some_iff p s r).mpr hr⟩

/-! ## Caption extraction (`altExp` and `Entry.AltText`, hello.go 47, 52-58)

The regular expression is `alt="[^"]*"`. Its leftmost match, when one
exists, is located at the first position where the literal `alt="` occurs
followed (at some later point) by a closing `"`; the greedy `[^"]*` then
takes exactly the characters up to that next quote. -/

/-- The literal prefix `alt="` of `altExp`. -/
def altPat : List Char := ['a', 'l', 't', '=', '"']

/-- The full text matched by `altExp` when it matches at the head of `s`:
`alt="` followed by the maximal quote-free run and the closing quote. -/
def altMatchAt (s : List Char) : Option (List Char) :=
  match dropPre altPat s with
  | none => none
  | some r =>
    if r.any (· == '"') then
      some (altPat ++ r.takeWhile (fun c => c != '"') ++ ['"'])
    else
      none

/-- Model of `altExp.FindString`: the text of the leftmost match, or `[]`
(the empty string) when there is no match. -/
def altFindString : List Char → List Char
  | [] => []
  | c :: rest =>
    match altMatchAt (c :: rest) with
    | some m => m
    | none => altFindString rest

/-- Model of the body of `(*Entry).AltText` (hello.go 52-58): run
`altExp.FindString` on the summary body; on the empty result return it,
otherwise slice off the leading `alt="` (5 characters) and the trailing
quote. -/
def altText (body : List Char) : List Char :=
  let s := altFindString body
  if s = [] then s else (s.drop 5).dropLast

/-- `(*Entry).AltText` itself, reading the raw `Summary.Body`. -/
def AltTextOf (e : Entry) : List Char := altText e.Summary.Body

/-- Declarative occurrence predicate: at offset `i` of `s` the pattern
`alt="[^"]*"` can match, i.e. the literal `alt="` occurs and a closing
quote exists somewhere after it. -/
def altOccursAt (s : List Char) (i : Nat) : Prop :=
  hasPre altPat (s.drop i) = true ∧ (s.drop (i + 5)).any (· == '"') = true

instance (s : List Char) (i : Nat) : Decidable (altOccursAt s i) := by
  unfold altOccursAt; infer_instance

theorem altOccursAt_cons_succ (c : Char) (s : List Char) (i : Nat) :
    altOccursAt (c :: s) (i + 1) ↔ altOccursAt s i := by
  unfold altOccursAt
  rw [List.drop_succ_cons]
  have : i + 1 + 5 = (i + 5) + 1 := by omega
  rw [this, List.drop_succ_cons]

theorem altMatchAt_eq_none (s : List Char) (h : ¬ altOccursAt s 0) :
    altMatchAt s = none := by
  unfold altOccursAt at h
  simp only [List.drop_zero] at h
  unfold altMatchAt
  cases hd : dropPre altPat s with
  | none => rfl
  | some r =>
    have hr : s = altPat ++ r := (dropPre_eq_some_iff altPat s r).mp hd
    have hpre : hasPre altPat s = true := by
      rw [hasPre_iff]; exact ⟨r, hr⟩
    have hr5 : s.drop 5 = r := by
      subst hr
      have : (altPat).length = 5 := by decide
      rw [← this, List.drop_left]
    simp only [hpre, true_and, hr5] at h
    simp [h]

theorem altMatchAt_eq_some (s : List Char) (h : altOccursAt s 0) :
    altMatchAt s =
      some (altPat ++ (s.drop 5).takeWhile (fun c => c != '"') ++ ['"']) := by
  unfold altOccursAt at h
  simp only [List.drop_zero] at h
  obtain ⟨h1, h2⟩ := h
  obtain ⟨r, hr⟩ := (hasPre_iff altPat s).mp h1
  have hr5 : s.drop 5 = r := by
    subst hr
    have : (altPat).length = 5 := by decide
    rw [← this, List.drop_left]
  unfold altMatchAt
  rw [hr, dropPre_append, ← hr, hr5]
  rw [hr5] at h2
  simp [h2]

theorem altFindString_of_none (s : List Char) (h : ∀ i, ¬ altOccursAt s i) :
    altFindString s = [] := by
  induction s with
  | nil => rfl
  | cons c rest ih =>
    unfold altFindString
    rw [altMatchAt_eq_none _ (h 0)]
    exact ih fun i hi => (h (i + 1)) ((altOccursAt_cons_succ c rest i).mpr hi)

theorem altFindString_of_least (s : List Char) (i : Nat) (h : altOccursAt s i)
    (hleast : ∀ j, j < i → ¬ altOccursAt s j) :
    altFindString s =
      altPat ++ (s.drop (i + 5)).takeWhile (fun c => c != '"') ++ ['"'] := by
  induction i generalizing s with
  | zero =>
    cases s with
    | nil =>
      exfalso
      have := h.1
      simp [hasPre, dropPre, altPat] at this
    | cons c rest =>
      unfold altFindString
      rw [altMatchAt_eq_some _ h]
  | succ n ih =>
    cases s with
    | nil =>
      exfalso
      have := h.1
      simp [hasPre, dropPre, altPat] at this
    | cons c rest =>
      unfold altFindString
      have h0 : ¬ altOccursAt (c :: rest) 0 := hleast 0 (Nat.succ_pos n)
      rw [altMatchAt_eq_none _ h0]
      have hrec := ih rest ((altOccursAt_cons_succ c rest n).mp h)
        (fun j hj => fun hc =>
          hleast (j + 1) (Nat.succ_lt_succ hj) ((altOccursAt_cons_succ c rest j).mpr hc))
      rw [hrec]
      have : n + 1 + 5 = (n + 5) + 1 := by omega
    
      rw [this, List.drop_succ_cons]

theorem quote_head_of_any (l : List Char) (h : l.any (· == '"') = true) :
    ∃ t, l.dropWhile (fun c => c != '"') = '"' :: t := by
  induction l with
  | nil => simp at h
  | cons c rest ih =>
    by_cases hc : c = '"'
    · subst hc
      exact ⟨rest, by simp [List.dropWhile]⟩
    · have : rest.any (· == '"') = true := by
        simp only [List.any_cons] at h
        rcases Bool.or_eq_true_iff.mp h with h' | h'
        · exact absurd (by simpa using h') hc
        · exact h'
      obtain ⟨t, ht⟩ := ih this
      have hcc : (c == '"') = false := by simpa using hc
      have ht' : List.dropWhile (fun x => !(x == '"')) rest = '"' :: t := by
        simpa [bne] using ht
      exact ⟨t, by simp [List.dropWhile, bne, hcc, ht']⟩

theorem takeWhile_no_quote (l : List Char) :
    (l.takeWhile (fun c => c != '"')).any (· == '"') = false := by
  rw [Bool.eq_false_iff]
  intro h
  rw [List.any_eq_true] at h
  obtain ⟨x, hx, hxq⟩ := h
  have := List.mem_takeWhile_imp hx
  simp at this hxq
  exact this hxq

/-- C4: for every Summary body string, caption extraction returns the value
of the first (leftmost) occurrence of `alt="<value>"` where `<value>` is a
run of characters excluding `"`; it returns the empty string when no such
pattern exists; only the first match counts. The extractor is a pure
function of the raw (still-escaped) body; it modifies nothing. -/
theorem c4_caption_extraction (body : List Char) :
    ((∀ i, ¬ altOccursAt body i) → altText body = []) ∧
    (∀ i, altOccursAt body i → (∀ j, j < i → ¬ altOccursAt body j) →
      altText body = (body.drop (i + 5)).takeWhile (fun c => c != '"') ∧
      (altText body).any (· == '"') = false ∧
      hasPre (altPat ++ altText body ++ ['"']) (body.drop i) = true) := by
  constructor
  · intro h
    unfold altText
    rw [altFindString_of_none body h]
    simp
  · intro i h hleast
    obtain ⟨h1, h2⟩ := h
    have hfind := altFindString_of_least body i ⟨h1, h2⟩ hleast
    have hv : altText body = (body.drop (i + 5)).takeWhile (fun c => c != '"') := by
      unfold altText
      rw [hfind]
      have hne : altPat ++ (body.drop (i + 5)).takeWhile (fun c => c != '"') ++ ['"'] ≠ [] := by
        simp [altPat]
      rw [if_neg hne]
      have h5 : (altPat).length = 5 := by decide
      rw [List.append_assoc, ← h5, List.drop_left]
      simp
    refine ⟨hv, ?_, ?_⟩
    · rw [hv]; exact takeWhile_no_quote _
    · rw [hv]
      obtain ⟨r, hr⟩ := (hasPre_iff altPat (body.drop i)).mp h1
      have hr5 : body.drop (i + 5) = r := by
        have hdd : body.drop (i + 5) = (body.drop i).drop 5 := by
          rw [List.drop_drop]
        rw [hdd, hr]
        have h5 : (altPat).length = 5 := by decide
        rw [← h5, List.drop_left]
      obtain ⟨t, ht⟩ := quote_head_of_any (body.drop (i + 5)) h2
      rw [hasPre_iff]
      refine ⟨t, ?_⟩
      have hsplit : body.drop (i + 5) =
          (body.drop (i + 5)).takeWhile (fun c => c != '"') ++
            (body.drop (i + 5)).dropWhile (fun c => c != '"') :=
        (List.takeWhile_append_dropWhile _ _).symm
      conv_lhs => rw [hr, ← hr5, hsplit, ht]
      simp

/-- C10: caption extraction returns the empty string both when the body
contains no `alt="..."` pattern at all and when the first matching pattern
is `alt=""` (empty value), so the two situations are indistinguishable to
a caller. -/
theorem c10_empty_vs_absent (body : List Char) :
    ((∀ i, ¬ altOccursAt body i) → altText body = []) ∧
    (∀ i, altOccursAt body i → (∀ j, j < i → ¬ altOccursAt body j) →
      (body.drop (i + 5)).takeWhile (fun c => c != '"') = [] →
      altText body = []) := by
  constructor
  · intro h
    unfold altText
    rw [altFindString_of_none body h]
    simp
  · intro i h hleast hempty
    unfold altText
    rw [altFindString_of_least body i h hleast, hempty]
    simp [altPat]

/-- Witness for C4 on the spec's own example body, where the first match
`alt="bar"` sits at offset 9 and a second `alt="baz"` occurrence follows. -/
theorem c4_caption_extraction_witness :
    altText "foo <img alt=\"bar\" src=\"x\"> alt=\"baz\"".data =
        (("foo <img alt=\"bar\" src=\"x\"> alt=\"baz\"".data).drop (9 + 5)).takeWhile
          (fun c => c != '"') ∧
      (altText "foo <img alt=\"bar\" src=\"x\"> alt=\"baz\"".data).any (· == '"') = false ∧
      hasPre (altPat ++ altText "foo <img alt=\"bar\" src=\"x\"> alt=\"baz\"".data ++ ['"'])
        (("foo <img alt=\"bar\" src=\"x\"> alt=\"baz\"".data).drop 9) = true :=
  (c4_caption_extraction _).2 9 (by decide) (by decide)

/-- Witness for C10: a body whose first match is `alt=""`; extraction
yields the empty string even though a later `alt="x"` has a value. -/
theorem c10_empty_vs_absent_witness :
    altText "a alt=\"\" b alt=\"x\"".data = [] :=
  (c10_empty_vs_absent _).2 2 (by decide) (by decide) (by decide)

/-! ## Link rewriting (`httpExp`, `httpsReplacement`, hello.go 48-49, 79)

`httpExp` is `http://(imgs\.)?xkcd.com`; note the unescaped dot of
`xkcd.com`, which in RE2 matches any character except a newline. `getUpstreamAtom`
applies `httpExp.ReplaceAll(b, []byte("https://${1}xkcd.com"))` to the raw
fetched bytes. `ReplaceAll` rewrites every leftmost-first, non-overlapping
match, scanning left to right and resuming after each match. -/

/-- The literal scheme prefix `http://` of `httpExp`. -/
def httpPat : List Char := ['h', 't', 't', 'p', ':', '/', '/']

/-- The optional group `(imgs\.)` of `httpExp` (dot escaped, so literal). -/
def imgsPat : List Char := ['i', 'm', 'g', 's', '.']

/-- The trailing `xkcd.com` of `httpExp`: literal `xkcd`, then RE2's `.`
(any character except newline), then literal `com`. -/
def xkcdChk : List Char → Bool
  | x :: k :: c :: d :: w :: c2 :: o :: m :: _ =>
    x == 'x' && k == 'k' && c == 'c' && d == 'd' && !(w == '\n') &&
      c2 == 'c' && o == 'o' && m == 'm'
  | _ => false

/-- Match attempt of `httpExp` anchored at the head of `s`, with Go's
leftmost-first (backtracking-preference) semantics: the greedy optional
group is tried first. `some true` means the group participates (match
length 20), `some false` means it does not (match length 15). -/
def httpMatchAt (s : List Char) : Option Bool :=
  match dropPre httpPat s with
  | none => none
  | some r =>
    match dropPre imgsPat r with
    | some r2 =>
      if xkcdChk r2 then some true
      else if xkcdChk r then some false
      else none
    | none => if xkcdChk r then some false else none

/-- Replacement text `https://${1}xkcd.com` when the group participated. -/
def rep2 : List Char :=
  ['h', 't', 't', 'p', 's', ':', '/', '/', 'i', 'm', 'g', 's', '.',
   'x', 'k', 'c', 'd', '.', 'c', 'o', 'm']

/-- Replacement text `https://${1}xkcd.com` with an empty group capture. -/
def rep1 : List Char :=
  ['h', 't', 't', 'p', 's', ':', '/', '/', 'x', 'k', 'c', 'd', '.', 'c', 'o', 'm']

/-- Model of `httpExp.ReplaceAll(b, httpsReplacement)` (hello.go 79): scan
left to right; at each position rewrite the leftmost-first match and resume
after it, otherwise copy one character. -/
def replaceAllHttp (s : List Char) : List Char :=
  match s with
  | [] => []
  | c :: rest =>
    match httpMatchAt (c :: rest) with
    | some true => rep2 ++ replaceAllHttp (rest.drop 19)
    | some false => rep1 ++ replaceAllHttp (rest.drop 14)
    | none => c :: replaceAllHttp rest
termination_by s.length
decreasing_by
  · simp [List.length_drop]; omega
  · simp [List.length_drop]; omega
  · simp

theorem replaceAll_nil : replaceAllHttp [] = [] := by
  rw [replaceAllHttp]

theorem replaceAll_cons_none {c : Char} {rest : List Char}
    (h : httpMatchAt (c :: rest) = none) :
    replaceAllHttp (c :: rest) = c :: replaceAllHttp rest := by
  rw [replaceAllHttp, h]

theorem replaceAll_cons_true {c : Char} {rest : List Char}
    (h : httpMatchAt (c :: rest) = some true) :
    replaceAllHttp (c :: rest) = rep2 ++ replaceAllHttp (rest.drop 19) := by
  rw [replaceAllHttp, h]

theorem replaceAll_cons_false {c : Char} {rest : List Char}
    (h : httpMatchAt (c :: rest) = some false) :
    replaceAllHttp (c :: rest) = rep1 ++ replaceAllHttp (rest.drop 14) := by
  rw [replaceAllHttp, h]

/-- No match can start anywhere in a string: the property preserved by the
rewriter and our formalisation of "contains only secure references". -/
def noMatchAll (s : List Char) : Prop := ∀ n, httpMatchAt (s.drop n) = none

/-- Executable form of `noMatchAll`: no suffix of `s` begins a match of the
insecure pattern `httpExp`. -/
def isSecure (s : List Char) : Bool :=
  s.tails.all fun t => (httpMatchAt t).isNone

theorem httpMatchAt_nil : httpMatchAt [] = none := rfl

theorem httpMatchAt_ne_h {c : Char} (t : List Char) (hc : c ≠ 'h') :
    httpMatchAt (c :: t) = none := by
  simp [httpMatchAt, httpPat, dropPre, hc]

theorem noMatchAll_nil : noMatchAll [] := by
  intro n
  simp [List.drop_nil, httpMatchAt_nil]

theorem noMatchAll_cons {c : Char} {T : List Char}
    (hc : httpMatchAt (c :: T) = none) (hT : noMatchAll T) :
    noMatchAll (c :: T) := by
  intro n
  cases n with
  | zero => simpa using hc
  | succ m => rw [List.drop_succ_cons]; exact hT m

theorem noMatchAll_tail {c : Char} {T : List Char} (h : noMatchAll (c :: T)) :
    noMatchAll T := by
  intro n
  have := h (n + 1)
  rwa [List.drop_succ_cons] at this

theorem cons_of_len_pos {l : List Char} (h : 0 < l.length) : ∃ a t, l = a :: t := by
  cases l with
  | nil => simp at h
  | cons a t => exact ⟨a, t, rfl⟩

theorem dropPre_some_len {p s r : List Char} (h : dropPre p s = some r) :
    r.length = s.length - p.length := by
  have := (dropPre_eq_some_iff p s r).mp h
  subst this
  simp

theorem dropPre_append_long :
    ∀ (p A X : List Char), p.length ≤ A.length →
      dropPre p (A ++ X) = (dropPre p A).map (fun r => r ++ X) := by
  intro p
  induction p with
  | nil => intro A X _; simp [dropPre]
  | cons a ps ih =>
    intro A X h
    cases A with
    | nil => simp at h
    | cons b B =>
      simp only [List.cons_append, dropPre, List.append_eq]
      by_cases hb : b = a
      · rw [if_pos hb, if_pos hb, ih B X (by simp at h; omega)]
      · rw [if_neg hb, if_neg hb]; rfl

theorem xkcdChk_append_long (u X : List Char) (h : 8 ≤ u.length) :
    xkcdChk (u ++ X) = xkcdChk u := by
  repeat
    (have hu : 0 < u.length := by omega
     obtain ⟨_, u, rfl⟩ := cons_of_len_pos hu
     simp only [List.length_cons] at h
     clear hu)
  simp [xkcdChk, List.cons_append]

theorem httpMatchAt_append_long (u X : List Char) (h : 20 ≤ u.length) :
    httpMatchAt (u ++ X) = httpMatchAt u := by
  unfold httpMatchAt
  rw [dropPre_append_long httpPat u X (by simp [httpPat]; omega)]
  cases hd : dropPre httpPat u with
  | none => rfl
  | some r =>
    have hr : r.length = u.length - 7 := by
      have := dropPre_some_len hd
      simpa [httpPat] using this
    simp only [Option.map_some']
    rw [dropPre_append_long imgsPat r X (by simp [imgsPat]; omega)]
    cases hd2 : dropPre imgsPat r with
    | none =>
      simp only [Option.map_none']
      rw [xkcdChk_append_long r X (by omega)]
    | some r2 =>
      have hr2 : r2.length = r.length - 5 := by
        have := dropPre_some_len hd2
        simpa [imgsPat] using this
      simp only [Option.map_some']
      rw [xkcdChk_append_long r2 X (by omega), xkcdChk_append_long r X (by omega)]

theorem replaceAll_split_aux :
    ∀ (n : Nat) (s : List Char), s.length ≤ n →
      replaceAllHttp s = s ∨
      ∃ A D Z, s = A ++ D ∧
        replaceAllHttp s =
          A ++ ('h' :: 't' :: 't' :: 'p' :: 's' :: ':' :: '/' :: '/' :: Z) := by
  intro n
  induction n with
  | zero =>
    intro s hs
    left
    have : s = [] := List.eq_nil_of_length_eq_zero (by omega)
    subst this
    exact replaceAll_nil
  | succ n ih =>
    intro s hs
    cases s with
    | nil => left; exact replaceAll_nil
    | cons c rest =>
      cases hm : httpMatchAt (c :: rest) with
      | none =>
        rcases ih rest (by simp at hs; omega) with h | ⟨A, D, Z, h1, h2⟩
        · left; rw [replaceAll_cons_none hm, h]
        · right
          refine ⟨c :: A, D, Z, by rw [List.cons_append, h1], ?_⟩
          rw [replaceAll_cons_none hm, h2, List.cons_append]
      | some b =>
        cases b with
        | false =>
          right
          refine ⟨[], c :: rest,
            'x' :: 'k' :: 'c' :: 'd' :: '.' :: 'c' :: 'o' :: 'm' ::
              replaceAllHttp (rest.drop 14), by simp, ?_⟩
          rw [replaceAll_cons_false hm]
          simp [rep1]
        | true =>
          right
          refine ⟨[], c :: rest,
            'i' :: 'm' :: 'g' :: 's' :: '.' :: 'x' :: 'k' :: 'c' :: 'd' :: '.' ::
              'c' :: 'o' :: 'm' :: replaceAllHttp (rest.drop 19), by simp, ?_⟩
          rw [replaceAll_cons_true hm]
          simp [rep2]

theorem replaceAll_split (s : List Char) :
    replaceAllHttp s = s ∨
    ∃ A D Z, s = A ++ D ∧
      replaceAllHttp s =
        A ++ ('h' :: 't' :: 't' :: 'p' :: 's' :: ':' :: '/' :: '/' :: Z) :=
  replaceAll_split_aux s.length s le_rfl

theorem httpMatchAt_none_iff (s : List Char) :
    httpMatchAt s = none ↔
      ∀ r, dropPre httpPat s = some r →
        xkcdChk r = false ∧ ∀ r2, dropPre imgsPat r = some r2 → xkcdChk r2 = false := by
  unfold httpMatchAt
  cases hd : dropPre httpPat s with
  | none => simp
  | some r =>
    dsimp only
    cases hd2 : dropPre imgsPat r with
    | none =>
      cases hc : xkcdChk r <;> simp [hc, hd2]
    | some r2 =>
      cases hc2 : xkcdChk r2 <;> cases hc : xkcdChk r <;> simp [hc, hc2, hd2]

/-- The heart of the idempotence proof: rewriting never creates a fresh
match. When no match starts at `c :: rest`, none starts at
`c :: replaceAllHttp rest` either: the rewritten tail agrees with `rest` on
the copied prefix, and the first divergence (if any) begins with the
replacement text `https://`, which cannot complete a match of the insecure
pattern. -/
theorem httpMatchAt_cons_replaceAll {c : Char} {rest : List Char}
    (h : httpMatchAt (c :: rest) = none) :
    httpMatchAt (c :: replaceAllHttp rest) = none := by
  rcases replaceAll_split rest with heq | ⟨A, D, Z, hAD, hRW⟩
  · rw [heq]; exact h
  · subst hAD
    rw [hRW]
    by_cases hlen : 19 ≤ A.length
    · have e1 : c :: (A ++ ('h' :: 't' :: 't' :: 'p' :: 's' :: ':' :: '/' :: '/' :: Z)) =
          (c :: A) ++ ('h' :: 't' :: 't' :: 'p' :: 's' :: ':' :: '/' :: '/' :: Z) := rfl
      have e2 : c :: (A ++ D) = (c :: A) ++ D := rfl
      rw [e1, httpMatchAt_append_long (c :: A) _ (by simp; omega)]
      rw [e2, httpMatchAt_append_long (c :: A) _ (by simp; omega)] at h
      exact h
    · push_neg at hlen
      obtain ⟨n, hn⟩ : ∃ n, A.length = n := ⟨_, rfl⟩
      have hn18 : n ≤ 18 := by omega
      clear hlen
      interval_cases n
      all_goals (
        repeat (have hu : 0 < A.length := by omega
                obtain ⟨a, A, rfl⟩ := cons_of_len_pos hu
                simp only [List.length_cons] at hn
                clear hu)
        have hA : A = [] := List.length_eq_zero.mp (by omega)
        subst hA
        simp only [List.cons_append, List.nil_append] at h ⊢
        rw [httpMatchAt_none_iff] at h ⊢
        intro r hr
        simp [httpPat, dropPre] at hr
        try (obtain ⟨rfl, rfl, rfl, rfl, rfl, rfl, rfl, rfl⟩ := hr
             refine ⟨?_, ?_⟩
             · simp [xkcdChk]
             · intro r2 hr2
               simp [imgsPat, dropPre] at hr2
               try (obtain ⟨rfl, rfl, rfl, rfl, rfl, rfl⟩ := hr2
                    simp [xkcdChk]))
        try (obtain ⟨rfl, rfl, rfl, rfl, rfl, rfl, rfl, rfl⟩ := hr
             refine ⟨?_, ?_⟩
             · have hh := (h _ rfl).1
               simp [xkcdChk] at hh ⊢
               exact hh
             · intro r2 hr2
               simp [imgsPat, dropPre] at hr2
               obtain ⟨rfl, rfl, rfl, rfl, rfl, rfl⟩ := hr2
               simp [xkcdChk]))

theorem noMatchAll_rep2 (T : List Char) (hT : noMatchAll T) :
    noMatchAll (rep2 ++ T) := by
  simp only [rep2, List.cons_append, List.nil_append]
  refine noMatchAll_cons ?_ ?_
  · rw [httpMatchAt_none_iff]
    intro r hr
    simp [httpPat, dropPre] at hr
  · repeat (refine noMatchAll_cons (httpMatchAt_ne_h _ (by decide)) ?_)
    exact hT

theorem noMatchAll_rep1 (T : List Char) (hT : noMatchAll T) :
    noMatchAll (rep1 ++ T) := by
  simp only [rep1, List.cons_append, List.nil_append]
  refine noMatchAll_cons ?_ ?_
  · rw [httpMatchAt_none_iff]
    intro r hr
    simp [httpPat, dropPre] at hr
  · repeat (refine noMatchAll_cons (httpMatchAt_ne_h _ (by decide)) ?_)
    exact hT

/-- The output of the rewriter contains no match of the insecure pattern
anywhere. -/
theorem noMatchAll_replaceAll (s : List Char) : noMatchAll (replaceAllHttp s) := by
  have main : ∀ (n : Nat) (s : List Char), s.length ≤ n →
      noMatchAll (replaceAllHttp s) := by
    intro n
    induction n with
    | zero =>
      intro s hs
      have : s = [] := List.eq_nil_of_length_eq_zero (by omega)
      subst this
      rw [replaceAll_nil]
      exact noMatchAll_nil
    | succ n ih =>
      intro s hs
      cases s with
      | nil => rw [replaceAll_nil]; exact noMatchAll_nil
      | cons c rest =>
        cases hm : httpMatchAt (c :: rest) with
        | none =>
          rw [replaceAll_cons_none hm]
          exact noMatchAll_cons (httpMatchAt_cons_replaceAll hm)
            (ih rest (by simp only [List.length_cons] at hs; omega))
        | some b =>
          cases b with
          | true =>
            rw [replaceAll_cons_true hm]
            refine noMatchAll_rep2 _ (ih (rest.drop 19) ?_)
            simp only [List.length_cons] at hs
            simp only [List.length_drop]
            omega
          | false =>
            rw [replaceAll_cons_false hm]
            refine noMatchAll_rep1 _ (ih (rest.drop 14) ?_)
            simp only [List.length_cons] at hs
            simp only [List.length_drop]
            omega
  exact main s.length s le_rfl

/-- A string with no match anywhere is a fixed point of the rewriter. -/
theorem replaceAll_of_noMatchAll {s : List Char} (h : noMatchAll s) :
    replaceAllHttp s = s := by
  induction s with
  | nil => exact replaceAll_nil
  | cons c rest ih =>
    have h0 : httpMatchAt (c :: rest) = none := by simpa using h 0
    rw [replaceAll_cons_none h0, ih (noMatchAll_tail h)]

theorem isSecure_noMatchAll {s : List Char} (h : isSecure s = true) :
    noMatchAll s := by
  intro n
  unfold isSecure at h
  rw [List.all_eq_true] at h
  have hmem : s.drop n ∈ s.tails := by
    rw [List.mem_tails]
    exact List.drop_suffix n s
  simpa [Option.isNone_iff_eq_none] using h _ hmem

/-- C7: the link rewriter is idempotent. A byte string that already
contains only secure-scheme references — formalised as: no position starts
a match of the insecure pattern `http://(imgs\.)?xkcd.com` — is left
unchanged, and for every byte string rewriting twice equals rewriting
once. Both halves hold uniformly in the optional `imgs.` subdomain prefix:
the statements quantify over all inputs, and the proofs cover both
replacement shapes `https://xkcd.com` and `https://imgs.xkcd.com`. -/
theorem c7_rewriter_idempotent (s : List Char) :
    (isSecure s = true → replaceAllHttp s = s) ∧
    replaceAllHttp (replaceAllHttp s) = replaceAllHttp s := by
  constructor
  · intro h
    exact replaceAll_of_noMatchAll (isSecure_noMatchAll h)
  · exact replaceAll_of_noMatchAll (noMatchAll_replaceAll s)

/-- Witness for C7: an already-secure string (with the `imgs.` prefix
present) is untouched by the rewriter. -/
theorem c7_rewriter_idempotent_witness :
    isSecure "to https://imgs.xkcd.com/a.png".data = true ∧
    replaceAllHttp "to https://imgs.xkcd.com/a.png".data =
      "to https://imgs.xkcd.com/a.png".data :=
  ⟨by decide, (c7_rewriter_idempotent _).1 (by decide)⟩

/-! ## Feed serializer / parser (spec section 4.2)

Modelled from the spec: the repository delegates serialization and parsing
of the `Feed` schema to `encoding/xml` (`xml.Marshal` / `xml.Unmarshal`),
whose code is not under src/. Per spec section 4.2, serialize emits the
fields of section 3 in struct order, omitting optional attributes when
empty, escaping text and attribute content, and writing the summary body
raw (`innerxml`); parse is the inverse grammar, failing with `none` on
input that does not conform. -/

/-- Escaping of one character of text or attribute content, as the
serializer's writer does (`&`, `<`, `>`, `"`, `'` become entities). -/
def escChar (c : Char) : List Char :=
  if c = '&' then ['&', 'a', 'm', 'p', ';']
  else if c = '<' then ['&', 'l', 't', ';']
  else if c = '>' then ['&', 'g', 't', ';']
  else if c = '"' then ['&', '#', '3', '4', ';']
  else if c = '\'' then ['&', '#', '3', '9', ';']
  else [c]

/-- Escape a whole string. -/
def esc : List Char → List Char
  | [] => []
  | c :: r => escChar c ++ esc r

/-- Recognise one escape entity right after a `&`. -/
def entityAt (r : List Char) : Option (Char × List Char) :=
  match dropPre ['a', 'm', 'p', ';'] r with
  | some r' => some ('&', r')
  | none =>
  match dropPre ['l', 't', ';'] r with
  | some r' => some ('<', r')
  | none =>
  match dropPre ['g', 't', ';'] r with
  | some r' => some ('>', r')
  | none =>
  match dropPre ['#', '3', '4', ';'] r with
  | some r' => some ('"', r')
  | none =>
  match dropPre ['#', '3', '9', ';'] r with
  | some r' => some ('\'', r')
  | none => none

theorem entityAt_len {r : List Char} {p : Char × List Char}
    (h : entityAt r = some p) : p.2.length ≤ r.length := by
  unfold entityAt at h
  cases h1 : dropPre ['a', 'm', 'p', ';'] r with
  | some r' => rw [h1] at h; cases h; exact dropPre_length h1
  | none =>
  rw [h1] at h
  cases h2 : dropPre ['l', 't', ';'] r with
  | some r' => rw [h2] at h; cases h; exact dropPre_length h2
  | none =>
  rw [h2] at h
  cases h3 : dropPre ['g', 't', ';'] r with
  | some r' => rw [h3] at h; cases h; exact dropPre_length h3
  | none =>
  rw [h3] at h
  cases h4 : dropPre ['#', '3', '4', ';'] r with
  | some r' => rw [h4] at h; cases h; exact dropPre_length h4
  | none =>
  rw [h4] at h
  cases h5 : dropPre ['#', '3', '9', ';'] r with
  | some r' => rw [h5] at h; cases h; exact dropPre_length h5
  | none => rw [h5] at h; cases h

/-- Unescape entities, the parser-side inverse of `esc`. A `&` that does
not start a recognised entity is kept verbatim. -/
def unesc (s : List Char) : List Char :=
  match s with
  | [] => []
  | c :: r =>
    if c = '&' then
      match h : entityAt r with
      | some p => p.1 :: unesc p.2
      | none => '&' :: unesc r
    else c :: unesc r
termination_by s.length
decreasing_by
  · have := entityAt_len h
    simp only [List.length_cons]
    omega
  · simp
  · simp

theorem escChar_mem {c x : Char} (hx : x ∈ escChar c) : x ≠ '<' ∧ x ≠ '"' := by
  unfold escChar at hx
  by_cases h1 : c = '&'
  · rw [if_pos h1] at hx
    simp at hx
    rcases hx with rfl | rfl | rfl | rfl | rfl <;> exact ⟨by decide, by decide⟩
  · rw [if_neg h1] at hx
    by_cases h2 : c = '<'
    · rw [if_pos h2] at hx
      simp at hx
      rcases hx with rfl | rfl | rfl | rfl <;> exact ⟨by decide, by decide⟩
    · rw [if_neg h2] at hx
      by_cases h3 : c = '>'
      · rw [if_pos h3] at hx
        simp at hx
        rcases hx with rfl | rfl | rfl | rfl <;> exact ⟨by decide, by decide⟩
      · rw [if_neg h3] at hx
        by_cases h4 : c = '"'
        · rw [if_pos h4] at hx
          simp at hx
          rcases hx with rfl | rfl | rfl | rfl | rfl <;> exact ⟨by decide, by decide⟩
        · rw [if_neg h4] at hx
          by_cases h5 : c = '\''
          · rw [if_pos h5] at hx
            simp at hx
            rcases hx with rfl | rfl | rfl | rfl | rfl <;> exact ⟨by decide, by decide⟩
          · rw [if_neg h5] at hx
            simp at hx
            subst hx
            exact ⟨h2, h4⟩

theorem esc_mem {s : List Char} {x : Char} (hx : x ∈ esc s) : x ≠ '<' ∧ x ≠ '"' := by
  induction s with
  | nil => simp [esc] at hx
  | cons c r ih =>
    unfold esc at hx
    rcases List.mem_append.mp hx with h | h
    · exact escChar_mem h
    · exact ih h

theorem takeWhile_app (p : Char → Bool) :
    ∀ (a : List Char) (c : Char) (b : List Char),
      (∀ x ∈ a, p x = true) → p c = false →
      (a ++ c :: b).takeWhile p = a ∧ (a ++ c :: b).dropWhile p = c :: b := by
  intro a
  induction a with
  | nil =>
    intro c b _ hc
    simp [List.takeWhile, List.dropWhile, hc]
  | cons y ys ih =>
    intro c b ha hc
    have hy : p y = true := ha y (by simp)
    have ihs := ih c b (fun x hx => ha x (by simp [hx])) hc
    constructor
    · simp only [List.cons_append, List.takeWhile_cons, hy, ihs.1]
      simp
    · simp only [List.cons_append, List.dropWhile_cons, hy, ihs.2]
      simp

theorem unesc_esc (s : List Char) : unesc (esc s) = s := by
  induction s with
  | nil => rw [esc]; rw [unesc.eq_def]
  | cons c r ih =>
    unfold esc escChar
    by_cases h1 : c = '&'
    · subst h1
      rw [if_pos rfl]
      rw [unesc.eq_def]
      simp [entityAt, dropPre, ih]
    · rw [if_neg h1]
      by_cases h2 : c = '<'
      · subst h2
        rw [if_pos rfl]
        rw [unesc.eq_def]
        simp [entityAt, dropPre, ih]
      · rw [if_neg h2]
        by_cases h3 : c = '>'
        · subst h3
          rw [if_pos rfl]
          rw [unesc.eq_def]
          simp [entityAt, dropPre, ih]
        · rw [if_neg h3]
          by_cases h4 : c = '"'
          · subst h4
            rw [if_pos rfl]
            rw [unesc.eq_def]
            simp [entityAt, dropPre, ih]
          · rw [if_neg h4]
            by_cases h5 : c = '\''
            · subst h5
              rw [if_pos rfl]
              rw [unesc.eq_def]
              simp [entityAt, dropPre, ih]
            · rw [if_neg h5]
              rw [List.singleton_append, unesc.eq_def]
              simp [h1, ih]

/-- Opening of the feed element with its namespace declaration (no `>`:
the optional `xml:lang` attribute may follow). -/
def feedOpen : List Char := "<feed xmlns=\"http://www.w3.org/2005/Atom\"".data

def langAttr : List Char := [' ', 'x', 'm', 'l', ':', 'l', 'a', 'n', 'g', '=', '"']

def titleOpen : List Char := ['<', 't', 'i', 't', 'l', 'e', '>']

def titleClose : List Char := ['<', '/', 't', 'i', 't', 'l', 'e', '>']

def linkOpen : List Char := ['<', 'l', 'i', 'n', 'k', ' ', 'h', 'r', 'e', 'f', '=', '"']

def relAttr : List Char := [' ', 'r', 'e', 'l', '=', '"']

def linkClose : List Char := ['>', '<', '/', 'l', 'i', 'n', 'k', '>']

def idOpen : List Char := ['<', 'i', 'd', '>']

def idClose : List Char := ['<', '/', 'i', 'd', '>']

def updatedOpen : List Char := ['<', 'u', 'p', 'd', 'a', 't', 'e', 'd', '>']

def updatedClose : List Char := ['<', '/', 'u', 'p', 'd', 'a', 't', 'e', 'd', '>']

def entryOpen : List Char := ['<', 'e', 'n', 't', 'r', 'y', '>']

def entryClose : List Char := ['<', '/', 'e', 'n', 't', 'r', 'y', '>']

def summaryOpen : List Char := ['<', 's', 'u', 'm', 'm', 'a', 'r', 'y']

def typeAttr : List Char := [' ', 't', 'y', 'p', 'e', '=', '"']

def summaryClose : List Char := ['<', '/', 's', 'u', 'm', 'm', 'a', 'r', 'y', '>']

def feedClose : List Char := ['<', '/', 'f', 'e', 'e', 'd', '>']

/-- Serialize one link: `<link href="…">` with the optional `rel`
attribute omitted when empty, closed as `</link>`. -/
def serializeLink (l : Link) : List Char :=
  linkOpen ++ esc l.Href ++ ['"'] ++
    (if l.Rel = [] then [] else relAttr ++ esc l.Rel ++ ['"']) ++ linkClose

def serializeLinks : List Link → List Char
  | [] => []
  | l :: ls => serializeLink l ++ serializeLinks ls

/-- Serialize one entry in struct field order: title, links, updated, id,
summary (optional `type` attribute, raw `innerxml` body). -/
def serializeEntry (e : Entry) : List Char :=
  entryOpen ++
    titleOpen ++ esc e.Title ++ titleClose ++
    serializeLinks e.Link ++
    updatedOpen ++ esc e.Updated ++ updatedClose ++
    idOpen ++ esc e.ID ++ idClose ++
    summaryOpen ++
      (if e.Summary.Type' = [] then [] else typeAttr ++ esc e.Summary.Type' ++ ['"']) ++
      ['>'] ++ e.Summary.Body ++ summaryClose ++
    entryClose

def serializeEntries : List Entry → List Char
  | [] => []
  | e :: es => serializeEntry e ++ serializeEntries es

/-- Serialize a feed in struct field order: optional `xml:lang` attribute,
title, links, id, updated, entries. -/
def serializeFeed (f : Feed) : List Char :=
  feedOpen ++
    (if f.Lang = [] then [] else langAttr ++ esc f.Lang ++ ['"']) ++
    ['>'] ++
    titleOpen ++ esc f.Title ++ titleClose ++
    serializeLinks f.Link ++
    idOpen ++ esc f.ID ++ idClose ++
    updatedOpen ++ esc f.Updated ++ updatedClose ++
    serializeEntries f.Entry ++
  feedClose

/-- Parse text content up to the next `<` and unescape it. -/
def pText (s : List Char) : List Char × List Char :=
  (unesc (s.takeWhile (fun c => c != '<')), s.dropWhile (fun c => c != '<'))

/-- Parse a double-quoted attribute value (cursor just after the opening
quote): unescaped value and the input after the closing quote. -/
def pAttrVal (s : List Char) : Option (List Char × List Char) :=
  match s.dropWhile (fun c => c != '"') with
  | '"' :: r => some (unesc (s.takeWhile (fun c => c != '"')), r)
  | _ => none

/-- Parse `opener`, text content, `closer`. -/
def pTagged (opener closer : List Char) (s : List Char) :
    Option (List Char × List Char) :=
  match dropPre opener s with
  | none => none
  | some s1 =>
    match pText s1 with
    | (v, s2) =>
      match dropPre closer s2 with
      | none => none
      | some s3 => some (v, s3)

def pLink (s : List Char) : Option (Link × List Char) :=
  match dropPre linkOpen s with
  | none => none
  | some s1 =>
  match pAttrVal s1 with
  | none => none
  | some (href, s2) =>
  match dropPre relAttr s2 with
  | some s3 =>
    match pAttrVal s3 with
    | none => none
    | some (rel, s4) =>
      match dropPre linkClose s4 with
      | none => none
      | some s5 => some (⟨href, rel⟩, s5)
  | none =>
    match dropPre linkClose s2 with
    | none => none
    | some s3 => some (⟨href, []⟩, s3)

def pLinks : Nat → List Char → List Link × List Char
  | 0, s => ([], s)
  | fuel + 1, s =>
    match pLink s with
    | none => ([], s)
    | some (l, s1) =>
      match pLinks fuel s1 with
      | (ls, s2) => (l :: ls, s2)

/-- Split the input at the first occurrence of `pat`, returning the text
before it and the input after it. Used for the raw `innerxml` summary
body, delimited by `</summary>`. -/
def splitOnSub (pat : List Char) : List Char → Option (List Char × List Char)
  | [] => none
  | c :: r =>
    match dropPre pat (c :: r) with
    | some rest => some ([], rest)
    | none =>
      match splitOnSub pat r with
      | none => none
      | some (a, b) => some (c :: a, b)

def pSummary (s : List Char) : Option (Summary × List Char) :=
  match dropPre summaryOpen s with
  | none => none
  | some s1 =>
  match dropPre typeAttr s1 with
  | some s2 =>
    match pAttrVal s2 with
    | none => none
    | some (ty, s3) =>
      match dropPre ['>'] s3 with
      | none => none
      | some s4 =>
        match splitOnSub summaryClose s4 with
        | none => none
        | some (body, s5) => some (⟨ty, body⟩, s5)
  | none =>
    match dropPre ['>'] s1 with
    | none => none
    | some s2 =>
      match splitOnSub summaryClose s2 with
      | none => none
      | some (body, s3) => some (⟨[], body⟩, s3)

def pEntry (s : List Char) : Option (Entry × List Char) :=
  match dropPre entryOpen s with
  | none => none
  | some s1 =>
  match pTagged titleOpen titleClose s1 with
  | none => none
  | some (t, s2) =>
  match pLinks s2.length s2 with
  | (ls, s3) =>
  match pTagged updatedOpen updatedClose s3 with
  | none => none
  | some (u, s4) =>
  match pTagged idOpen idClose s4 with
  | none => none
  | some (i, s5) =>
  match pSummary s5 with
  | none => none
  | some (sm, s6) =>
  match dropPre entryClose s6 with
  | none => none
  | some s7 => some (⟨t, ls, u, i, sm⟩, s7)

def pEntries : Nat → List Char → List Entry × List Char
  | 0, s => ([], s)
  | fuel + 1, s =>
    match pEntry s with
    | none => ([], s)
    | some (e, s1) =>
      match pEntries fuel s1 with
      | (es, s2) => (e :: es, s2)

/-- Parse everything after the feed opening tag's `>`. -/
def parseFeedRest (lang : List Char) (s : List Char) : Option Feed :=
  match pTagged titleOpen titleClose s with
  | none => none
  | some (t, s1) =>
  match pLinks s1.length s1 with
  | (ls, s2) =>
  match pTagged idOpen idClose s2 with
  | none => none
  | some (i, s3) =>
  match pTagged updatedOpen updatedClose s3 with
  | none => none
  | some (u, s4) =>
  match pEntries s4.length s4 with
  | (es, s5) =>
  match dropPre feedClose s5 with
  | none => none
  | some s6 => if s6 = [] then some ⟨lang, t, ls, i, u, es⟩ else none

/-- Parse a serialized feed document: the parse-equivalent deserialization
of spec section 4.2 for the grammar `serializeFeed` emits. -/
def parseFeed (s : List Char) : Option Feed :=
  match dropPre feedOpen s with
  | none => none
  | some s1 =>
  match dropPre langAttr s1 with
  | some s2 =>
    match pAttrVal s2 with
    | none => none
    | some (lg, s3) =>
      match dropPre ['>'] s3 with
      | none => none
      | some s4 => parseFeedRest lg s4
  | none =>
    match dropPre ['>'] s1 with
    | none => none
    | some s2 => parseFeedRest [] s2

/-- `pat` occurs as a contiguous substring of `s`. -/
def containsSub (pat : List Char) : List Char → Bool
  | [] => false
  | c :: r => hasPre pat (c :: r) || containsSub pat r

/-- Valid field values for the round-trip (spec sections 3 and 4.2): each
summary body is raw markup that does not itself contain the closing
delimiter `</summary>`. -/
def validFeed (f : Feed) : Prop :=
  ∀ e ∈ f.Entry, containsSub summaryClose e.Summary.Body = false

theorem pText_round (v w : List Char) :
    pText (esc v ++ '<' :: w) = (v, '<' :: w) := by
  unfold pText
  have hT := takeWhile_app (fun c => c != '<') (esc v) '<' w
    (fun x hx => by simpa [bne] using (esc_mem hx).1) (by decide)
  rw [hT.1, hT.2, unesc_esc]

theorem pAttrVal_round (v r : List Char) :
    pAttrVal (esc v ++ '"' :: r) = some (v, r) := by
  unfold pAttrVal
  have hT := takeWhile_app (fun c => c != '"') (esc v) '"' r
    (fun x hx => by simpa [bne] using (esc_mem hx).2) (by decide)
  rw [hT.1, hT.2, unesc_esc]
  simp

theorem pTagged_round (opener closer ctail : List Char) (hc : closer = '<' :: ctail)
    (v r : List Char) :
    pTagged opener closer (opener ++ (esc v ++ (closer ++ r))) = some (v, r) := by
  unfold pTagged
  subst hc
  rw [dropPre_append]
  dsimp only
  rw [List.cons_append, pText_round]
  dsimp only
  rw [show ('<' :: (ctail ++ r)) = ('<' :: ctail) ++ r from rfl, dropPre_append]

theorem pLink_round (l : Link) (r : List Char) :
    pLink (serializeLink l ++ r) = some (l, r) := by
  unfold serializeLink pLink
  by_cases hrel : l.Rel = []
  · rw [if_pos hrel]
    simp only [List.append_nil, List.nil_append, List.append_assoc, List.singleton_append,
      List.cons_append]
    rw [dropPre_append]
    dsimp only
    rw [pAttrVal_round]
    dsimp only
    have hnone : dropPre relAttr (linkClose ++ r) = none := by
      simp [relAttr, linkClose, dropPre]
    rw [hnone, dropPre_append, ← hrel]
  · rw [if_neg hrel]
    simp only [List.append_nil, List.nil_append, List.append_assoc, List.singleton_append,
      List.cons_append]
    rw [dropPre_append]
    dsimp only
    rw [pAttrVal_round]
    dsimp only
    rw [dropPre_append]
    dsimp only
    rw [pAttrVal_round]
    dsimp only
    rw [dropPre_append]

theorem pLinks_stop (r : List Char) (h : pLink r = none) :
    ∀ fuel, pLinks fuel r = ([], r) := by
  intro fuel
  cases fuel with
  | zero => rfl
  | succ f => unfold pLinks; rw [h]

theorem pLinks_round :
    ∀ (ls : List Link) (fuel : Nat) (r : List Char), ls.length ≤ fuel →
      pLink r = none → pLinks fuel (serializeLinks ls ++ r) = (ls, r) := by
  intro ls
  induction ls with
  | nil =>
    intro fuel r _ hstop
    rw [serializeLinks, List.nil_append]
    exact pLinks_stop r hstop fuel
  | cons l ls ih =>
    intro fuel r hlen hstop
    cases fuel with
    | zero => simp at hlen
    | succ f =>
      rw [serializeLinks, List.append_assoc]
      unfold pLinks
      rw [pLink_round]
      dsimp only
      rw [ih f r (by simp at hlen; omega) hstop]

theorem summaryClose_no_border :
    ∀ n, 1 ≤ n → n ≤ 9 →
      summaryClose ≠ summaryClose.take n ++ summaryClose.take (10 - n) := by
  decide

theorem containsSub_tail {pat : List Char} {c : Char} {bs : List Char}
    (h : containsSub pat (c :: bs) = false) : containsSub pat bs = false := by
  unfold containsSub at h
  rcases Bool.or_eq_false_iff.mp h with ⟨_, h2⟩
  exact h2

theorem dropPre_shift_none (A r : List Char) (hA1 : 1 ≤ A.length)
    (hpre : hasPre summaryClose A = false) :
    dropPre summaryClose (A ++ (summaryClose ++ r)) = none := by
  cases hd : dropPre summaryClose (A ++ (summaryClose ++ r)) with
  | none => rfl
  | some q =>
    exfalso
    have heq := (dropPre_eq_some_iff _ _ _).mp hd
    have hlen10 : summaryClose.length = 10 := by decide
    by_cases h10 : 10 ≤ A.length
    · have h1 : (A ++ (summaryClose ++ r)).take 10 = A.take 10 :=
        List.take_append_of_le_length h10
      have h2 : (summaryClose ++ q).take 10 = summaryClose := by
        rw [← hlen10, List.take_left]
      have h3 : summaryClose = A.take 10 := by
        calc summaryClose = (summaryClose ++ q).take 10 := h2.symm
          _ = (A ++ (summaryClose ++ r)).take 10 := by rw [heq]
          _ = A.take 10 := h1
      have hp : hasPre summaryClose A = true := by
        rw [hasPre_iff]
        exact ⟨A.drop 10, by rw [h3, List.take_append_drop]⟩
      rw [hp] at hpre
      simp at hpre
    · push_neg at h10
      obtain ⟨n, hn⟩ : ∃ n, A.length = n := ⟨_, rfl⟩
      have t1 : (A ++ (summaryClose ++ r)).take n = A := by
        rw [← hn, List.take_append_of_le_length le_rfl, List.take_length]
      have t2 : (summaryClose ++ q).take n = summaryClose.take n :=
        List.take_append_of_le_length (by omega)
      have hcbs : A = summaryClose.take n := by
        calc A = (A ++ (summaryClose ++ r)).take n := t1.symm
          _ = (summaryClose ++ q).take n := by rw [heq]
          _ = summaryClose.take n := t2
      have t3 : (A ++ (summaryClose ++ r)).take 10 =
          A ++ (summaryClose ++ r).take (10 - n) := by
        rw [List.take_append_eq_append_take]
        congr 1
        · exact List.take_of_length_le (by omega)
        · rw [hn]
      have t4 : (summaryClose ++ r).take (10 - n) = summaryClose.take (10 - n) :=
        List.take_append_of_le_length (by omega)
      have t5 : (summaryClose ++ q).take 10 = summaryClose := by
        rw [← hlen10, List.take_left]
      have hfinal : summaryClose =
          summaryClose.take n ++ summaryClose.take (10 - n) := by
        calc summaryClose = (summaryClose ++ q).take 10 := t5.symm
          _ = (A ++ (summaryClose ++ r)).take 10 := by rw [heq]
          _ = A ++ summaryClose.take (10 - n) := by rw [t3, t4]
          _ = summaryClose.take n ++ summaryClose.take (10 - n) := by rw [hcbs]
      exact summaryClose_no_border n (by omega) (by omega) hfinal

theorem splitOnSub_round (body r : List Char)
    (hb : containsSub summaryClose body = false) :
    splitOnSub summaryClose (body ++ (summaryClose ++ r)) = some (body, r) := by
  induction body with
  | nil =>
    rw [List.nil_append]
    rw [show summaryClose ++ r =
      '<' :: (['/', 's', 'u', 'm', 'm', 'a', 'r', 'y', '>'] ++ r) from rfl]
    rw [splitOnSub]
    rw [show ('<' :: (['/', 's', 'u', 'm', 'm', 'a', 'r', 'y', '>'] ++ r)) =
      summaryClose ++ r from rfl, dropPre_append]
  | cons c bs ih =>
    have hb' := hb
    unfold containsSub at hb'
    have hb1 : hasPre summaryClose (c :: bs) = false := (Bool.or_eq_false_iff.mp hb').1
    have hhead : dropPre summaryClose (c :: (bs ++ (summaryClose ++ r))) = none := by
      have := dropPre_shift_none (c :: bs) r (by simp) hb1
      simpa [List.cons_append] using this
    rw [List.cons_append, splitOnSub, hhead]
    dsimp only
    rw [ih (containsSub_tail hb)]

theorem pSummary_round (ty bd r : List Char)
    (hb : containsSub summaryClose bd = false) :
    pSummary (summaryOpen ++
        ((if ty = [] then [] else typeAttr ++ (esc ty ++ ['"'])) ++
          ('>' :: (bd ++ (summaryClose ++ r))))) = some (⟨ty, bd⟩, r) := by
  unfold pSummary
  by_cases hty : ty = []
  · rw [if_pos hty]
    rw [List.nil_append, dropPre_append]
    dsimp only
    have hno : dropPre typeAttr ('>' :: (bd ++ (summaryClose ++ r))) = none := by
      simp [typeAttr, dropPre]
    rw [hno]
    dsimp only
    rw [show ('>' :: (bd ++ (summaryClose ++ r))) =
      ['>'] ++ (bd ++ (summaryClose ++ r)) from rfl, dropPre_append]
    dsimp only
    rw [splitOnSub_round bd r hb]
    rw [hty]
  · rw [if_neg hty]
    simp only [List.append_assoc, List.singleton_append, List.cons_append,
      List.nil_append]
    rw [dropPre_append]
    dsimp only
    rw [dropPre_append]
    dsimp only
    rw [pAttrVal_round]
    dsimp only
    rw [show ('>' :: (bd ++ (summaryClose ++ r))) =
      ['>'] ++ (bd ++ (summaryClose ++ r)) from rfl, dropPre_append]
    dsimp only
    rw [splitOnSub_round bd r hb]

theorem pLink_stop_updated (X : List Char) : pLink (updatedOpen ++ X) = none := by
  have h : dropPre linkOpen (updatedOpen ++ X) = none := by
    simp [linkOpen, updatedOpen, dropPre]
  unfold pLink
  rw [h]

theorem pLink_stop_id (X : List Char) : pLink (idOpen ++ X) = none := by
  have h : dropPre linkOpen (idOpen ++ X) = none := by
    simp [linkOpen, idOpen, dropPre]
  unfold pLink
  rw [h]

theorem pEntry_stop (X : List Char) : pEntry (feedClose ++ X) = none := by
  have h : dropPre entryOpen (feedClose ++ X) = none := by
    simp [entryOpen, feedClose, dropPre]
  unfold pEntry
  rw [h]

theorem serializeLink_len (l : Link) : 1 ≤ (serializeLink l).length := by
  unfold serializeLink
  simp [linkOpen]

theorem serializeLinks_len (ls : List Link) (X : List Char) :
    ls.length ≤ (serializeLinks ls ++ X).length := by
  induction ls generalizing X with
  | nil => simp
  | cons l ls ih =>
    rw [serializeLinks, List.append_assoc]
    simp only [List.length_append, List.length_cons]
    have h1 := serializeLink_len l
    have h2 := ih X
    simp only [List.length_append] at h2
    omega

theorem pEntry_round (e : Entry) (r : List Char)
    (hb : containsSub summaryClose e.Summary.Body = false) :
    pEntry (serializeEntry e ++ r) = some (e, r) := by
  obtain ⟨t, ls, u, i, sm⟩ := e
  obtain ⟨ty, bd⟩ := sm
  dsimp only at hb
  unfold serializeEntry pEntry
  dsimp only
  simp only [List.append_assoc, List.cons_append, List.singleton_append,
    List.nil_append]
  rw [dropPre_append]
  dsimp only
  rw [pTagged_round titleOpen titleClose ['/', 't', 'i', 't', 'l', 'e', '>'] rfl]
  dsimp only
  rw [pLinks_round ls _ _ (serializeLinks_len ls _) (pLink_stop_updated _)]
  dsimp only
  rw [pTagged_round updatedOpen updatedClose
    ['/', 'u', 'p', 'd', 'a', 't', 'e', 'd', '>'] rfl]
  dsimp only
  rw [pTagged_round idOpen idClose ['/', 'i', 'd', '>'] rfl]
  dsimp only
  rw [pSummary_round ty bd _ hb]
  dsimp only
  rw [dropPre_append]

theorem pEntries_stop (r : List Char) (h : pEntry r = none) :
    ∀ fuel, pEntries fuel r = ([], r) := by
  intro fuel
  cases fuel with
  | zero => rfl
  | succ f => unfold pEntries; rw [h]

theorem serializeEntry_len (e : Entry) : 1 ≤ (serializeEntry e).length := by
  unfold serializeEntry
  simp [entryOpen]

theorem serializeEntries_len (es : List Entry) (X : List Char) :
    es.length ≤ (serializeEntries es ++ X).length := by
  induction es generalizing X with
  | nil => simp
  | cons e es ih =>
    rw [serializeEntries, List.append_assoc]
    simp only [List.length_append, List.length_cons]
    have h1 := serializeEntry_len e
    have h2 := ih X
    simp only [List.length_append] at h2
    omega

theorem pEntries_round :
    ∀ (es : List Entry) (fuel : Nat) (r : List Char), es.length ≤ fuel →
      pEntry r = none →
      (∀ e ∈ es, containsSub summaryClose e.Summary.Body = false) →
      pEntries fuel (serializeEntries es ++ r) = (es, r) := by
  intro es
  induction es with
  | nil =>
    intro fuel r _ hstop _
    rw [serializeEntries, List.nil_append]
    exact pEntries_stop r hstop fuel
  | cons e es ih =>
    intro fuel r hlen hstop hv
    cases fuel with
    | zero => simp at hlen
    | succ f =>
      rw [serializeEntries, List.append_assoc]
      unfold pEntries
      rw [pEntry_round e _ (hv e (by simp))]
      dsimp only
      rw [ih f r (by simp at hlen; omega) hstop
        (fun x hx => hv x (by simp [hx]))]

/-- C1: round-trip. For every `Feed` built from valid field values — the
only constraint is that no summary body contains the literal closing
delimiter `</summary>`, since the body is written raw (`innerxml`) —
parsing the bytes produced by serializing it yields the identical `Feed`
on every field of section 3. The serializer emits no incidental
whitespace, so equality is exact. -/
theorem c1_round_trip (f : Feed) (hv : validFeed f) :
    parseFeed (serializeFeed f) = some f := by
  obtain ⟨lg, t, ls, i, u, es⟩ := f
  have hv' : ∀ e ∈ es, containsSub summaryClose e.Summary.Body = false := by
    intro e he
    exact hv e he
  unfold serializeFeed parseFeed
  dsimp only
  simp only [List.append_assoc, List.cons_append, List.singleton_append,
    List.nil_append]
  rw [dropPre_append]
  dsimp only
  have hfeedCl : dropPre feedClose feedClose = some [] := by
    have := dropPre_append feedClose []
    rwa [List.append_nil] at this
  have hstop : pEntry feedClose = none := by
    have := pEntry_stop []
    rwa [List.append_nil] at this
  by_cases hlg : lg = []
  · rw [if_pos hlg]
    rw [List.nil_append]
    have hno : dropPre langAttr
        ('>' :: (titleOpen ++ (esc t ++ (titleClose ++ (serializeLinks ls ++
          (idOpen ++ (esc i ++ (idClose ++ (updatedOpen ++ (esc u ++
          (updatedClose ++ (serializeEntries es ++ feedClose)))))))))))) = none := by
      simp [langAttr, dropPre]
    rw [hno]
    dsimp only
    rw [show ('>' :: (titleOpen ++ (esc t ++ (titleClose ++ (serializeLinks ls ++
      (idOpen ++ (esc i ++ (idClose ++ (updatedOpen ++ (esc u ++
      (updatedClose ++ (serializeEntries es ++ feedClose)))))))))))) =
      ['>'] ++ (titleOpen ++ (esc t ++ (titleClose ++ (serializeLinks ls ++
      (idOpen ++ (esc i ++ (idClose ++ (updatedOpen ++ (esc u ++
      (updatedClose ++ (serializeEntries es ++ feedClose))))))))))) from rfl,
      dropPre_append]
    dsimp only
    unfold parseFeedRest
    rw [pTagged_round titleOpen titleClose ['/', 't', 'i', 't', 'l', 'e', '>'] rfl]
    dsimp only
    rw [pLinks_round ls _ _ (serializeLinks_len ls _) (pLink_stop_id _)]
    dsimp only
    rw [pTagged_round idOpen idClose ['/', 'i', 'd', '>'] rfl]
    dsimp only
    rw [pTagged_round updatedOpen updatedClose
      ['/', 'u', 'p', 'd', 'a', 't', 'e', 'd', '>'] rfl]
    dsimp only
    rw [pEntries_round es _ _ (serializeEntries_len es _) hstop hv']
    dsimp only
    rw [hfeedCl]
    dsimp only
    rw [if_pos rfl, hlg]
  · rw [if_neg hlg]
    simp only [List.append_assoc, List.cons_append, List.singleton_append,
      List.nil_append]
    rw [dropPre_append]
    dsimp only
    rw [pAttrVal_round]
    dsimp only
    rw [show ('>' :: (titleOpen ++ (esc t ++ (titleClose ++ (serializeLinks ls ++
      (idOpen ++ (esc i ++ (idClose ++ (updatedOpen ++ (esc u ++
      (updatedClose ++ (serializeEntries es ++ feedClose)))))))))))) =
      ['>'] ++ (titleOpen ++ (esc t ++ (titleClose ++ (serializeLinks ls ++
      (idOpen ++ (esc i ++ (idClose ++ (updatedOpen ++ (esc u ++
      (updatedClose ++ (serializeEntries es ++ feedClose))))))))))) from rfl,
      dropPre_append]
    dsimp only
    unfold parseFeedRest
    rw [pTagged_round titleOpen titleClose ['/', 't', 'i', 't', 'l', 'e', '>'] rfl]
    dsimp only
    rw [pLinks_round ls _ _ (serializeLinks_len ls _) (pLink_stop_id _)]
    dsimp only
    rw [pTagged_round idOpen idClose ['/', 'i', 'd', '>'] rfl]
    dsimp only
    rw [pTagged_round updatedOpen updatedClose
      ['/', 'u', 'p', 'd', 'a', 't', 'e', 'd', '>'] rfl]
    dsimp only
    rw [pEntries_round es _ _ (serializeEntries_len es _) hstop hv']
    dsimp only
    rw [hfeedCl]
    dsimp only
    rw [if_pos rfl]

/-- Witness for C1: a concrete feed exercising the language attribute,
escaping in text and attributes, optional `rel`/`type` attributes both
present and absent, and a raw markup body. -/
theorem c1_round_trip_witness :
    validFeed ⟨"en".data, "t&bh <3".data, [⟨"https://xkcd.com/".data, []⟩],
        "id0".data, "2015-01-01".data,
        [⟨"A\"q".data, [⟨"https://xkcd.com/1/".data, "alternate".data⟩],
          "2015-01-02".data, "id1".data,
          ⟨"html".data, "<img src=\"x.png\" alt=\"hi\"/>".data⟩⟩]⟩ ∧
      parseFeed (serializeFeed
        ⟨"en".data, "t&bh <3".data, [⟨"https://xkcd.com/".data, []⟩],
          "id0".data, "2015-01-01".data,
          [⟨"A\"q".data, [⟨"https://xkcd.com/1/".data, "alternate".data⟩],
            "2015-01-02".data, "id1".data,
            ⟨"html".data, "<img src=\"x.png\" alt=\"hi\"/>".data⟩⟩]⟩) =
        some ⟨"en".data, "t&bh <3".data, [⟨"https://xkcd.com/".data, []⟩],
          "id0".data, "2015-01-01".data,
          [⟨"A\"q".data, [⟨"https://xkcd.com/1/".data, "alternate".data⟩],
            "2015-01-02".data, "id1".data,
            ⟨"html".data, "<img src=\"x.png\" alt=\"hi\"/>".data⟩⟩]⟩ :=
  ⟨by unfold validFeed; decide, c1_round_trip _ (by unfold validFeed; decide)⟩

/-! ## Upstream fetcher and caching orchestrator (hello.go 65-113)

`getUpstreamAtom` and `cachingGetUpstreamAtom` are embedded with their
external collaborators as explicit parameters: the HTTP response is an
oracle value, `xml.Unmarshal` / `xml.Marshal` are function parameters
(instantiated with `parseFeed` / `serializeFeed` in witnesses), and App
Engine memcache — whose code is not in src/ — is modelled from the spec
(sections 3, 4.5, 6) as a single keyed entry carrying a value and an
absolute expiry instant, with a get that can also fail for reasons other
than a miss. -/

/-- Outcome of `urlfetch` `client.Get` plus the body read: a transport
error, or a response with a status code and a body-read outcome. -/
inductive UpstreamResult where
  | netErr : UpstreamResult
  | resp (status : Nat) (body : Except Unit (List Char)) : UpstreamResult

/-- The error taxonomy of `getUpstreamAtom` (hello.go 65-85), in source
order: transport error, non-OK status, body read failure, unmarshal
failure. -/
inductive FetchErr where
  | transport : FetchErr
  | status : FetchErr
  | bodyRead : FetchErr
  | parseFail : FetchErr
deriving DecidableEq, Repr

/-- `getUpstreamAtom` (hello.go 65-85): propagate a transport error;
reject a status other than 200 (`http.StatusOK`) with the error of line
72; read the body; rewrite insecure links; unmarshal. -/
def getUpstreamAtom (parse : List Char → Option Feed)
    (u : UpstreamResult) : Except FetchErr Feed :=
  match u with
  | .netErr => .error .transport
  | .resp status body =>
    if status ≠ 200 then .error .status
    else
      match body with
      | .error _ => .error .bodyRead
      | .ok b =>
        match parse (replaceAllHttp b) with
        | none => .error .parseFail
        | some feed => .ok feed

deriving instance DecidableEq for Except

/-- Errors surfaced by `cachingGetUpstreamAtom`: a fetch-path error, or
the line-110 failure to unmarshal a cached value. -/
inductive OrchErr where
  | fetch (e : FetchErr) : OrchErr
  | cacheCorrupt : OrchErr
deriving DecidableEq, Repr

/-- Modelled from the spec (sections 3 and 4.5): the memcache collaborator
(not in src/) holds at most one entry at the fixed key `atomKey`: a byte
value and an absolute expiry instant, set 5 minutes after the store and
honoured autonomously. -/
structure CacheState where
  entry : Option (List Char × Nat)
deriving DecidableEq, Repr

/-- Kinds of `memcache.Get` failure: a miss, or any other error; the
source (line 91) treats every non-nil error alike. -/
inductive GetErr where
  | miss : GetErr
  | other : GetErr
deriving DecidableEq, Repr

/-- Modelled from the spec (section 6): `get(key) -> bytes | miss` against
the single keyed entry, honouring the expiry instant at time `now`. -/
def memGet (c : CacheState) (now : Nat) : Except GetErr (List Char) :=
  match c.entry with
  | none => .error .miss
  | some (v, exp) => if now < exp then .ok v else .error .miss

/-- Result of one orchestrator invocation: what is returned to the caller,
the cache state afterwards, and whether the fetch path ran. -/
structure OrchResult where
  result : Except OrchErr Feed
  cache : CacheState
  fetched : Bool
deriving DecidableEq, Repr

/-- `cachingGetUpstreamAtom` (hello.go 89-113). On any `memcache.Get`
error: run the fetch path; on its failure return the error with the cache
untouched; on success try to `xml.Marshal` the feed and, when that
succeeds, `memcache.Set` it with a 5-minute expiration, ignoring the
set's error (a failed set — `setOk = false` — leaves the cache
unchanged); either way return the feed. On a hit: unmarshal the cached
bytes, failing with the cache-corruption error of line 110, without
falling back to the fetch path. -/
def cachingGetUpstreamAtom (parse : List Char → Option Feed)
    (marshal : Feed → Option (List Char)) (getRes : Except GetErr (List Char))
    (u : UpstreamResult) (setOk : Bool) (now : Nat) (cache : CacheState) :
    OrchResult :=
  match getRes with
  | .error _ =>
    match getUpstreamAtom parse u with
    | .error e => ⟨.error (.fetch e), cache, true⟩
    | .ok feed =>
      match marshal feed with
      | some b =>
        ⟨.ok feed, if setOk then ⟨some (b, now + 5 * 60)⟩ else cache, true⟩
      | none => ⟨.ok feed, cache, true⟩
  | .ok v =>
    match parse v with
    | none => ⟨.error .cacheCorrupt, cache, false⟩
    | some feed => ⟨.ok feed, cache, false⟩

/-- C2: on a cache miss (or any lookup error) with an upstream response
whose status is not 200, the orchestrator returns the status error from
the fetch path and performs no cache write: the cache state is returned
unchanged. -/
theorem c2_status_error_no_write (parse : List Char → Option Feed)
    (marshal : Feed → Option (List Char)) (e : GetErr) (st : Nat)
    (body : Except Unit (List Char)) (setOk : Bool) (now : Nat)
    (cache : CacheState) (hst : st ≠ 200) :
    (cachingGetUpstreamAtom parse marshal (.error e) (.resp st body) setOk now
        cache).result = .error (.fetch .status) ∧
    (cachingGetUpstreamAtom parse marshal (.error e) (.resp st body) setOk now
        cache).cache = cache := by
  unfold cachingGetUpstreamAtom getUpstreamAtom
  dsimp only
  rw [if_pos hst]
  exact ⟨rfl, rfl⟩

/-- Witness for C2 at status 404: the orchestrator surfaces the fetch
status error and leaves an empty cache empty. -/
theorem c2_status_error_no_write_witness :
    (cachingGetUpstreamAtom parseFeed (fun f => some (serializeFeed f))
        (.error .miss) (.resp 404 (.ok [])) true 0 ⟨none⟩).result =
      .error (.fetch .status) ∧
    (cachingGetUpstreamAtom parseFeed (fun f => some (serializeFeed f))
        (.error .miss) (.resp 404 (.ok [])) true 0 ⟨none⟩).cache = ⟨none⟩ :=
  c2_status_error_no_write parseFeed (fun f => some (serializeFeed f)) .miss 404
    (.ok []) true 0 ⟨none⟩ (by decide)

/-- C3: when the cache lookup succeeds but the stored bytes fail to
deserialize, the orchestrator fails with the cache-corruption error and
does not fall back to the fetch path (and writes nothing). -/
theorem c3_cache_corruption_strict (parse : List Char → Option Feed)
    (marshal : Feed → Option (List Char)) (v : List Char) (u : UpstreamResult)
    (setOk : Bool) (now : Nat) (cache : CacheState) (hp : parse v = none) :
    (cachingGetUpstreamAtom parse marshal (.ok v) u setOk now cache).result =
      .error .cacheCorrupt ∧
    (cachingGetUpstreamAtom parse marshal (.ok v) u setOk now cache).fetched =
      false ∧
    (cachingGetUpstreamAtom parse marshal (.ok v) u setOk now cache).cache =
      cache := by
  unfold cachingGetUpstreamAtom
  dsimp only
  rw [hp]
  exact ⟨rfl, rfl, rfl⟩

/-- Witness for C3 on bytes that are not a serialized feed. -/
theorem c3_cache_corruption_strict_witness :
    (cachingGetUpstreamAtom parseFeed (fun f => some (serializeFeed f))
        (.ok "garbage".data) .netErr true 7 ⟨some ("garbage".data, 100)⟩).result =
      .error .cacheCorrupt ∧
    (cachingGetUpstreamAtom parseFeed (fun f => some (serializeFeed f))
        (.ok "garbage".data) .netErr true 7 ⟨some ("garbage".data, 100)⟩).fetched =
      false ∧
    (cachingGetUpstreamAtom parseFeed (fun f => some (serializeFeed f))
        (.ok "garbage".data) .netErr true 7 ⟨some ("garbage".data, 100)⟩).cache =
      ⟨some ("garbage".data, 100)⟩ :=
  c3_cache_corruption_strict parseFeed (fun f => some (serializeFeed f))
    "garbage".data .netErr true 7 ⟨some ("garbage".data, 100)⟩ (by decide)

/-- C6: when the fetch path succeeds, a failure to serialize the feed or
to store it (`setOk = false`) is absorbed: the freshly fetched feed is
still returned to the caller. -/
theorem c6_store_failure_absorbed (parse : List Char → Option Feed)
    (marshal : Feed → Option (List Char)) (e : GetErr) (u : UpstreamResult)
    (setOk : Bool) (now : Nat) (cache : CacheState) (feed : Feed)
    (hok : getUpstreamAtom parse u = .ok feed)
    (hfail : marshal feed = none ∨ setOk = false) :
    (cachingGetUpstreamAtom parse marshal (.error e) u setOk now cache).result =
      .ok feed := by
  unfold cachingGetUpstreamAtom
  dsimp only
  rw [hok]
  cases hm : marshal feed with
  | none => simp [hm]
  | some b => simp [hm]

/-- Witness for C6: a failing marshaller is absorbed and the fetched feed
is returned (the unmarshaller is instantiated with a constant function so
that the fetch succeeds on a 200 response). -/
theorem c6_store_failure_absorbed_witness :
    (cachingGetUpstreamAtom (fun _ => some ⟨[], "t".data, [], "i".data, "u".data, []⟩)
        (fun _ => none) (.error .other) (.resp 200 (.ok []))
        true 0 ⟨none⟩).result =
      .ok ⟨[], "t".data, [], "i".data, "u".data, []⟩ :=
  c6_store_failure_absorbed (fun _ => some ⟨[], "t".data, [], "i".data, "u".data, []⟩)
    (fun _ => none) .other (.resp 200 (.ok []))
    true 0 ⟨none⟩ ⟨[], "t".data, [], "i".data, "u".data, []⟩ (by rfl)
    (Or.inl rfl)

/-- C9: every kind of cache lookup error — miss or otherwise — sends the
orchestrator down the fetch path, and the caller sees exactly the fetch
path's outcome: a lookup error is never surfaced as a failure. -/
theorem c9_lookup_error_takes_fetch_path (parse : List Char → Option Feed)
    (marshal : Feed → Option (List Char)) (u : UpstreamResult) (setOk : Bool)
    (now : Nat) (cache : CacheState) :
    ∀ e : GetErr,
      (cachingGetUpstreamAtom parse marshal (.error e) u setOk now
          cache).fetched = true ∧
      (cachingGetUpstreamAtom parse marshal (.error e) u setOk now
          cache).result = (getUpstreamAtom parse u).mapError OrchErr.fetch := by
  intro e
  unfold cachingGetUpstreamAtom
  dsimp only
  cases hg : getUpstreamAtom parse u with
  | error fe => simp [Except.mapError]
  | ok feed =>
    cases hm : marshal feed with
    | none => simp [hm, Except.mapError]
    | some b => simp [hm, Except.mapError]

/-- C5: cache freshness. After a successful store at time `t0` (empty
cache, successful fetch, successful marshal and set), a second request at
time `t1` within 5 minutes is served from the cache — the stored feed is
returned without invoking the fetch path — while a second request at or
after the 5-minute expiry takes the fetch path. The store/expiry
semantics of memcache are modelled from the spec (sections 3 and 6). -/
theorem c5_cache_freshness (parse : List Char → Option Feed)
    (marshal : Feed → Option (List Char)) (u u' : UpstreamResult)
    (setOk' : Bool) (t0 t1 : Nat) (feed : Feed) (b : List Char)
    (hfetch : getUpstreamAtom parse u = .ok feed)
    (hmar : marshal feed = some b) (hparse : parse b = some feed) :
    (t1 < t0 + 5 * 60 →
      (cachingGetUpstreamAtom parse marshal
          (memGet (cachingGetUpstreamAtom parse marshal (memGet ⟨none⟩ t0) u
              true t0 ⟨none⟩).cache t1)
          u' setOk' t1
          (cachingGetUpstreamAtom parse marshal (memGet ⟨none⟩ t0) u true t0
              ⟨none⟩).cache).result = .ok feed ∧
      (cachingGetUpstreamAtom parse marshal
          (memGet (cachingGetUpstreamAtom parse marshal (memGet ⟨none⟩ t0) u
              true t0 ⟨none⟩).cache t1)
          u' setOk' t1
          (cachingGetUpstreamAtom parse marshal (memGet ⟨none⟩ t0) u true t0
              ⟨none⟩).cache).fetched = false) ∧
    (t0 + 5 * 60 ≤ t1 →
      (cachingGetUpstreamAtom parse marshal
          (memGet (cachingGetUpstreamAtom parse marshal (memGet ⟨none⟩ t0) u
              true t0 ⟨none⟩).cache t1)
          u' setOk' t1
          (cachingGetUpstreamAtom parse marshal (memGet ⟨none⟩ t0) u true t0
              ⟨none⟩).cache).fetched = true) := by
  have hmiss0 : memGet ⟨none⟩ t0 = .error .miss := rfl
  have hr1 : (cachingGetUpstreamAtom parse marshal (memGet ⟨none⟩ t0) u true t0
      ⟨none⟩).cache = ⟨some (b, t0 + 5 * 60)⟩ := by
    rw [hmiss0]
    unfold cachingGetUpstreamAtom
    dsimp only
    rw [hfetch]
    dsimp only
    rw [hmar]
    simp
  rw [hr1]
  constructor
  · intro ht
    have hhit : memGet ⟨some (b, t0 + 5 * 60)⟩ t1 = .ok b := by
      unfold memGet
      dsimp only
      rw [if_pos ht]
    rw [hhit]
    unfold cachingGetUpstreamAtom
    dsimp only
    rw [hparse]
    exact ⟨rfl, rfl⟩
  · intro ht
    have hmiss : memGet ⟨some (b, t0 + 5 * 60)⟩ t1 = .error .miss := by
      unfold memGet
      dsimp only
      rw [if_neg (by omega)]
    rw [hmiss]
    unfold cachingGetUpstreamAtom
    dsimp only
    cases hg : getUpstreamAtom parse u' with
    | error fe => simp [hg]
    | ok fd =>
      cases hm : marshal fd with
      | none => simp [hg, hm]
      | some bb => simp [hg, hm]

/-- Witness for C5: a concrete store at `t0 = 0` followed by a lookup at
`t1 = 100` (inside the 5-minute window) returns the stored feed without
fetching. The parse/marshal collaborators are instantiated with concrete
functions whose round-trip on the stored bytes holds definitionally. -/
theorem c5_cache_freshness_witness :
    (cachingGetUpstreamAtom (fun _ => some ⟨[], "t".data, [], "i".data, "u".data, []⟩)
        (fun _ => some "bytes".data)
        (memGet (cachingGetUpstreamAtom
            (fun _ => some ⟨[], "t".data, [], "i".data, "u".data, []⟩)
            (fun _ => some "bytes".data) (memGet ⟨none⟩ 0) (.resp 200 (.ok []))
            true 0 ⟨none⟩).cache 100)
        .netErr false 100
        (cachingGetUpstreamAtom
            (fun _ => some ⟨[], "t".data, [], "i".data, "u".data, []⟩)
            (fun _ => some "bytes".data) (memGet ⟨none⟩ 0) (.resp 200 (.ok []))
            true 0 ⟨none⟩).cache).result =
      .ok ⟨[], "t".data, [], "i".data, "u".data, []⟩ ∧
    (cachingGetUpstreamAtom (fun _ => some ⟨[], "t".data, [], "i".data, "u".data, []⟩)
        (fun _ => some "bytes".data)
        (memGet (cachingGetUpstreamAtom
            (fun _ => some ⟨[], "t".data, [], "i".data, "u".data, []⟩)
            (fun _ => some "bytes".data) (memGet ⟨none⟩ 0) (.resp 200 (.ok []))
            true 0 ⟨none⟩).cache 100)
        .netErr false 100
        (cachingGetUpstreamAtom
            (fun _ => some ⟨[], "t".data, [], "i".data, "u".data, []⟩)
            (fun _ => some "bytes".data) (memGet ⟨none⟩ 0) (.resp 200 (.ok []))
            true 0 ⟨none⟩).cache).fetched = false :=
  (c5_cache_freshness (fun _ => some ⟨[], "t".data, [], "i".data, "u".data, []⟩)
    (fun _ => some "bytes".data) (.resp 200 (.ok [])) .netErr false 0 100
    ⟨[], "t".data, [], "i".data, "u".data, []⟩ "bytes".data rfl rfl rfl).1
    (by omega)

/-! ## Presentation adapters (hello.go 115-133, 169-189)

`atomHandler` mutates each entry of the feed value it received, appending
a newline and the extracted caption to `Summary.Body` in place (lines
122-124), before marshalling. `mainHandler` only reads the feed,
projecting each entry into a fresh `pageEntry` (lines 176-185);
`html.UnescapeString` is a stdlib collaborator taken as a parameter. In
both cases the mutated value is the per-request unmarshalled copy; the
cache entry itself is not touched by either handler. -/

/-- The republish adapter's per-entry update (hello.go 123):
`Summary.Body += "\n" + AltText()`, with the caption extracted from the
body before the append. -/
def rePublishEntry (e : Entry) : Entry :=
  { e with Summary := { e.Summary with
      Body := e.Summary.Body ++ '\n' :: AltTextOf e } }

/-- The feed value held by `atomHandler` after its augmentation loop. -/
def atomFeedAfter (f : Feed) : Feed := { f with Entry := f.Entry.map rePublishEntry }

/-- `pageEntry` from hello.go 163-167. -/
structure pageEntry where
  Title : List Char
  Img : List Char
  Text : List Char
deriving DecidableEq, Repr

/-- The page adapter's projection (hello.go 176-185): a fresh list of
display structures; the feed is only read. -/
def mainEntries (unescapeHtml : List Char → List Char) (f : Feed) : List pageEntry :=
  f.Entry.map fun e =>
    ⟨e.Title, unescapeHtml e.Summary.Body, unescapeHtml (AltTextOf e)⟩

/-- The feed value held by `mainHandler` after building its page entries:
the loop never writes to the feed. -/
def mainFeedAfter (f : Feed) : Feed := f

/-- Counterexample for C8 as stated: the republish adapter does mutate the
`Feed` it receives — after `atomFeedAfter` runs on a one-entry feed, the
entry's `Summary.Body` has a newline and caption appended, so not all
fields are the same as before. -/
theorem c8_counterexample :
    atomFeedAfter ⟨[], "t".data, [], "i".data, "u".data,
        [⟨"e".data, [], "u1".data, "i1".data, ⟨[], "body".data⟩⟩]⟩ ≠
      ⟨[], "t".data, [], "i".data, "u".data,
        [⟨"e".data, [], "u1".data, "i1".data, ⟨[], "body".data⟩⟩]⟩ := by
  decide

/-- C8 amended: the page adapter leaves the `Feed` entirely unchanged and
produces fresh output structures; the republish adapter preserves every
feed-level field and every entry field except `Summary.Body`, which it
extends in place by a newline plus the extracted caption. (The cached
representation is a separate serialized copy and is written by neither
adapter.) -/
theorem c8_adapters_mutation (unescapeHtml : List Char → List Char) (f : Feed) :
    mainFeedAfter f = f ∧
    (atomFeedAfter f).Lang = f.Lang ∧
    (atomFeedAfter f).Title = f.Title ∧
    (atomFeedAfter f).Link = f.Link ∧
    (atomFeedAfter f).ID = f.ID ∧
    (atomFeedAfter f).Updated = f.Updated ∧
    List.Forall₂ (fun e e' =>
        e'.Title = e.Title ∧ e'.Link = e.Link ∧ e'.Updated = e.Updated ∧
        e'.ID = e.ID ∧ e'.Summary.Type' = e.Summary.Type' ∧
        e'.Summary.Body = e.Summary.Body ++ '\n' :: altText e.Summary.Body)
      f.Entry (atomFeedAfter f).Entry ∧
    mainEntries unescapeHtml f = f.Entry.map (fun e =>
      ⟨e.Title, unescapeHtml e.Summary.Body,
        unescapeHtml (altText e.Summary.Body)⟩) := by
  refine ⟨rfl, rfl, rfl, rfl, rfl, rfl, ?_, rfl⟩
  show List.Forall₂ _ f.Entry (f.Entry.map rePublishEntry)
  induction f.Entry with
  | nil => exact List.Forall₂.nil
  | cons e es ih =>
    exact List.Forall₂.cons ⟨rfl, rfl, rfl, rfl, rfl, rfl⟩ ih
